import Mathlib

set_option maxRecDepth 1000000

/-!
Shallow embedding of the `rust-coding-theory/homeworks` repository
(crates `galois`, `bch`, `reed_solomon`, `concatenated_code`) and proofs
about the claims of its specification.

Conventions of the embedding:

* Rust `u32` values are `Nat`s known to be `< 2^32`; wherever the Rust code
  can actually drop bits (`a <<= 1` inside the carry-less multiplication) we
  reduce `% 2^32` explicitly.  Shift-amount overflow (`x << s` with `s ≥ 32`),
  integer-addition overflow and `panic!` are modelled with `Option` (`none`
  means the Rust program panics); this matters for `BCH::encode`/`decode`.
* All loops are modelled with explicit fuel and structural recursion so that
  every definition evaluates inside the kernel (`decide`/`rfl`).  The fuel is
  always sufficient: a `u32` has at most 32 bits and every loop below strictly
  decreases the bit-length of its scrutinee; the proofs establish this where a
  theorem depends on it.
* The matrix module of the `galois` crate is referenced by `galois/src/lib.rs`
  but its source file is not present under `src/`; `matSolve` below is
  modelled from the spec (§4.3) instead: Gaussian elimination with partial
  pivoting, returning `none` ("Singular") when no pivot exists.
* The external polynomial containers (`polynomial::Polynomial`,
  `poly_it::Polynomial`) are out of scope per the spec (§1); following §3/§4.3
  they are modelled as coefficient lists (index 0 = constant term), with
  trailing zero coefficients stripped on construction and Horner evaluation.
-/

/-- Bit length of `n` computed with explicit fuel; `bitsLen 32 n` is the
number of bits of a `u32` value (`32 - leading_zeros`). -/
def bitsLen : Nat → Nat → Nat
  | 0, _ => 0
  | f+1, n => if n = 0 then 0 else bitsLen f (n / 2) + 1

/-- Embedding of `u32::leading_zeros` for a value `n < 2^32`. -/
def clz32 (n : Nat) : Nat := 32 - bitsLen 32 n

namespace PolyGF2

/-- Embedding of `PolyGF2::degree`: `(self.poly.leading_zeros() ^ 31) as usize`.
Note `degree 0 = 32 ^^^ 31 = 63`. -/
def degree (n : Nat) : Nat := clz32 n ^^^ 31

/-- Loop body of `PolyGF2::mul` (`impl Mul`): shift-and-XOR carry-less
multiplication on `u32`, so the running `a <<= 1` is truncated `% 2^32`. -/
def mulGo : Nat → Nat → Nat → Nat
  | 0, _, _ => 0
  | f+1, a, b =>
    if b = 0 then 0
    else (if b % 2 = 1 then a else 0) ^^^ mulGo f (2 * a % 2^32) (b / 2)

/-- Embedding of `PolyGF2::mul`: the loop runs while `b > 0`, at most 32 iterations for a
`u32`, hence fuel 32. -/
def mul (a b : Nat) : Nat := mulGo 32 a b

/-- Loop of `PolyGF2::divmod`: while `remainder != 0` and
`remainder.leading_zeros() <= divisor.leading_zeros()`, XOR the aligned
divisor into the remainder and set the corresponding quotient bit.  The
bit length of the remainder strictly decreases, so 32 fuel suffices. -/
def divmodGo (d : Nat) : Nat → Nat → Nat → Nat × Nat
  | 0, q, r => (q, r)
  | f+1, q, r =>
    if r ≠ 0 ∧ clz32 r ≤ clz32 d then
      divmodGo d f ((q ^^^ 2 ^ (clz32 d - clz32 r)))
        (r ^^^ d * 2 ^ (clz32 d - clz32 r) % 2^32)
    else (q, r)

/-- Embedding of `PolyGF2::divmod`; the Rust function panics ("division by zero") on a
zero divisor, modelled as `none`. -/
def divmod (a b : Nat) : Option (Nat × Nat) :=
  if b = 0 then none else some (divmodGo b 32 0 a)

/-- Total helper for the quotient `a / b`; only used where the source
guarantees `b ≠ 0` (junk on `b = 0`, which would panic in Rust). -/
def pdivT (a b : Nat) : Nat := (divmodGo b 32 0 a).1

/-- Total helper for the remainder `a % b`; only used where the source
guarantees `b ≠ 0` (junk on `b = 0`, which would panic in Rust). -/
def pmodT (a b : Nat) : Nat := (divmodGo b 32 0 a).2

/-- Loop of `PolyGF2::gcd` (Euclid with `%`); each step strictly decreases
the bit length of the second argument, so 33 fuel covers every `u32` pair. -/
def gcdGo : Nat → Nat → Nat → Nat
  | 0, a, _ => a
  | f+1, a, b => if b = 0 then a else gcdGo f b (pmodT a b)

/-- Embedding of `PolyGF2::gcd`. -/
def gcd (a b : Nat) : Nat := gcdGo 33 a b

/-- Embedding of `PolyGF2::lcm`: `self * rhs / gcd`. -/
def lcm (a b : Nat) : Nat := pdivT (mul a b) (gcd a b)

/-- Inner loop of `PolyGF2::irreducible`: trial-divide `p` by every
polynomial `i` with `2 ≤ i < 2^degree`, `false` as soon as a remainder is
zero.  `fuel` counts the remaining candidates starting at `i`. -/
def noDivGo (p : Nat) : Nat → Nat → Bool
  | 0, _ => true
  | f+1, i => if pmodT p i = 0 then false else noDivGo p f (i + 1)

/-- Outer loop of `PolyGF2::irreducible` over candidates
`2^degree ..= 2^(degree+1)`; returns `PolyGF2::default()` (0) if none
passes, exactly as the Rust fallthrough does. -/
def irrSearch (d : Nat) : Nat → Nat → Nat
  | 0, _ => 0
  | f+1, p => if noDivGo p (2^d - 2) 2 then p else irrSearch d f (p + 1)

/-- Embedding of `PolyGF2::irreducible(degree)`: first candidate in
`1 << degree ..= 1 << (degree+1)` with no nontrivial divisor below
`1 << degree`. -/
def irreducible (d : Nat) : Nat := irrSearch d (2^d + 1) (2^d)

end PolyGF2

/-- Embedding of `GF2TM<M>`: a field element as stored by the Rust struct — the residue
`value` together with the irreducible modulus `irr` (every constructor in
the source sets `irr = PolyGF2::irreducible(M)`). -/
structure GF2TM where
  value : Nat
  irr : Nat
deriving DecidableEq

namespace GF2TM

/-- Embedding of `GF2TM::new`: `value % PolyGF2::new(1 << M)` — polynomial reduction by
`x^M`, i.e. the low `M` bits (never the reduction by `irr`!). -/
def new (m v : Nat) : GF2TM := ⟨PolyGF2.pmodT v (2^m), PolyGF2.irreducible m⟩

/-- Embedding of `impl From<u32> for GF2TM<M>`: stores the raw value, with no reduction
of any kind. -/
def fromU32 (m v : Nat) : GF2TM := ⟨v, PolyGF2.irreducible m⟩

/-- Embedding of `Zero::zero`. -/
def zero (m : Nat) : GF2TM := ⟨0, PolyGF2.irreducible m⟩

/-- Embedding of `One::one` / `GF2TM::one`. -/
def one (m : Nat) : GF2TM := ⟨1, PolyGF2.irreducible m⟩

/-- Embedding of `impl Add`: `(value + rhs.value) % irr` where PolyGF2 addition is XOR. -/
def add (a b : GF2TM) : GF2TM := ⟨PolyGF2.pmodT (a.value ^^^ b.value) a.irr, a.irr⟩

/-- Embedding of `impl Sub`: identical to addition in characteristic 2 (the Rust `sub`
calls PolyGF2 `sub`, which is `add`). -/
def sub (a b : GF2TM) : GF2TM := ⟨PolyGF2.pmodT (a.value ^^^ b.value) a.irr, a.irr⟩

/-- Embedding of `impl Mul`: `(value * rhs.value) % irr` with carry-less multiply. -/
def mul (a b : GF2TM) : GF2TM := ⟨PolyGF2.pmodT (PolyGF2.mul a.value b.value) a.irr, a.irr⟩

/-- Embedding of `impl Neg`: `PolyGF2::default() - self = 0 XOR self`, the value is kept
unchanged and no reduction happens. -/
def neg (a : GF2TM) : GF2TM := ⟨a.value, a.irr⟩

/-- Embedding of `GF2TM::pow`: naive repeated multiplication starting from
`GF2TM::new(PolyGF2::new(1))`. -/
def pow (m : Nat) (a : GF2TM) : Nat → GF2TM
  | 0 => new m 1
  | e+1 => (pow m a e).mul a

/-- Embedding of `GF2TM::inv`: `self.pow((1 << M) - 2)` with no zero check. -/
def inv (m : Nat) (a : GF2TM) : GF2TM := pow m a (2^m - 2)

/-- Embedding of `impl Div`: `(value * rhs.inv().value) % irr`. -/
def div (m : Nat) (a b : GF2TM) : GF2TM :=
  ⟨PolyGF2.pmodT (PolyGF2.mul a.value (inv m b).value) a.irr, a.irr⟩

/-- Loop of `GF2TM::is_primitive`: repeatedly multiply `powers` by `value`
mod `irr`; `none` signals the early `return false` when a proper power hits
1.  The fuel is the iteration count `order - 1`. -/
def primPows (v irr : Nat) : Nat → Nat → Option Nat
  | 0, p => some p
  | c+1, p =>
    let pn := PolyGF2.pmodT (PolyGF2.mul p v) irr
    if pn = 1 then none else primPows v irr c pn

/-- Embedding of `GF2TM::is_primitive`: no proper power of `value` is 1 and the
`(2^M - 1)`-th power is 1. -/
def isPrimitive (m : Nat) (a : GF2TM) : Bool :=
  match primPows a.value a.irr (2^m - 2) 1 with
  | none => false
  | some p => PolyGF2.pmodT (PolyGF2.mul p a.value) a.irr == 1

/-- Loop of `GF2TM::primitive_element` over candidates `1 .. 1 << M`; the
Rust `unreachable!()` fallthrough is modelled as the zero element. -/
def primSearch (m : Nat) : Nat → Nat → GF2TM
  | 0, _ => ⟨0, PolyGF2.irreducible m⟩
  | f+1, c => if (new m c).isPrimitive m then new m c else primSearch m f (c + 1)

/-- Embedding of `GF2TM::primitive_element`. -/
def primitiveElement (m : Nat) : GF2TM := primSearch m (2^m - 1) 1

end GF2TM

/-- Trailing-zero stripping performed by the external polynomial containers
on construction (spec §3: "strip trailing zeros on construction"). -/
def trimZeros (l : List GF2TM) : List GF2TM :=
  (l.reverse.dropWhile (fun x => x.value == 0)).reverse

/-- Coefficient-wise addition of polynomials over `GF2TM` (external
`polynomial` crate; missing coefficients are treated as zero). -/
def polyAddL : List GF2TM → List GF2TM → List GF2TM
  | [], q => q
  | p, [] => p
  | a :: p, b :: q => a.add b :: polyAddL p q

/-- Multiplication of a polynomial by a scalar from the left. -/
def polyScale (a : GF2TM) (p : List GF2TM) : List GF2TM := p.map (fun c => a.mul c)

/-- Convolution product of polynomials over `GF2TM` (external `polynomial`
crate `Mul`). -/
def polyMulL (m : Nat) : List GF2TM → List GF2TM → List GF2TM
  | [], _ => []
  | a :: p, q => polyAddL (polyScale a q) (GF2TM.zero m :: polyMulL m p q)

/-- Horner evaluation of a polynomial over `GF2TM` at a point, as the
external crates do (`data.iter().rev().fold(zero, |acc, c| acc * x + c)`). -/
def polyEval (m : Nat) (p : List GF2TM) (x : GF2TM) : GF2TM :=
  p.foldr (fun c acc => (acc.mul x).add c) (GF2TM.zero m)

/-- Embedding of `impl From<Polynomial<GF2TM<M>>> for PolyGF2`: fold the low bit of every
coefficient, highest coefficient first (`data().iter().rev()`). -/
def polyToGF2 (l : List GF2TM) : Nat :=
  l.reverse.foldl (fun acc x => (2 * acc) ||| (x.value &&& 1)) 0

namespace GF2TM

/-- Embedding of `GF2TM::minimal_poly`: multiply `x - conj` over the distinct Frobenius
conjugates `self^(2^i)`, `i < M`, then fold the product back into a packed
GF(2) polynomial.  The Rust code collects the conjugates in a `HashSet`;
since polynomial multiplication is commutative the product does not depend
on the iteration order, and we use insertion order with duplicates removed
(`List.eraseDups` keeps the first occurrence). -/
def minimalPoly (m : Nat) (a : GF2TM) : Nat :=
  let conj := ((List.range m).map (fun i => a.pow m (2^i))).eraseDups
  let prodP := conj.foldl
    (fun acc e => trimZeros (polyMulL m acc (trimZeros [e, GF2TM.one m])))
    (trimZeros [GF2TM.one m])
  polyToGF2 prodP

end GF2TM

/-- Find the first row with a non-zero leading entry (partial pivoting),
returning it together with the remaining rows in order. -/
def pivotPick : List (List GF2TM) → Option (List GF2TM × List (List GF2TM))
  | [] => none
  | row :: rest =>
    if (row.headD (GF2TM.mk 0 0)).value ≠ 0 then some (row, rest)
    else
      match pivotPick rest with
      | none => none
      | some (p, others) => some (p, row :: others)

/-- Forward elimination on an augmented matrix.  Modelled from the spec:
the matrix module of the `galois` crate is not under `src/`; §4.3 specifies
Gaussian elimination with partial pivoting and a `Singular` failure when no
pivot is found.  Each step normalizes the pivot row and eliminates the
leading column from the other rows; returns the triangular list of
normalized pivot rows. -/
def fwdGo (m : Nat) : Nat → List (List GF2TM) → Option (List (List GF2TM))
  | 0, _ => some []
  | fuel+1, rows =>
    match rows with
    | [] => some []
    | _ :: _ =>
      match pivotPick rows with
      | none => none
      | some (p, others) =>
        let ph := p.headD (GF2TM.mk 0 0)
        let pn := p.map (fun a => GF2TM.div m a ph)
        let reduced := others.map (fun row =>
          (List.zipWith (fun a b => a.sub ((row.headD (GF2TM.mk 0 0)).mul b)) row pn).drop 1)
        match fwdGo m fuel reduced with
        | none => none
        | some rest => some (pn :: rest)

/-- Back substitution over the triangular pivot rows produced by `fwdGo`
(each row starts with a leading 1, then the coefficients of the later
variables, then the right-hand side).  Modelled from the spec (§4.3). -/
def backSub (m : Nat) (rows : List (List GF2TM)) : List GF2TM :=
  rows.foldr
    (fun row xs =>
      let rest := row.drop 1
      let rhs := rest.getLastD (GF2TM.zero m)
      let cs := rest.dropLast
      ((List.zipWith (fun c x => c.mul x) cs xs).foldl (fun acc t => acc.sub t) rhs) :: xs)
    []

/-- Embedding of `Matrix::solve`.  Modelled from the spec (§4.3): returns the unique
solution of the square system, or `none` (`Singular`) when elimination
finds no pivot. -/
def matSolve (m : Nat) (mat : List (List GF2TM)) (rhs : List GF2TM) : Option (List GF2TM) :=
  let aug := List.zipWith (fun row b => row ++ [b]) mat rhs
  (fwdGo m aug.length aug).map (backSub m)

/-- Embedding of `BCH<M>` codec state. -/
structure BCHCodec where
  primitive_element : GF2TM
  distance : Nat
  code_length : Nat
  message_length : Nat
  generator_poly : Nat
deriving DecidableEq

namespace BCH

/-- Generator polynomial: `lcm` of the minimal polynomials of
`α^1 .. α^(distance-1)` (`reduce` over the mapped range; the Rust `unwrap`
on an empty range — distance ≤ 1 — would panic, modelled as 0). -/
def genPoly (m d : Nat) (alpha : GF2TM) : Nat :=
  match (List.range (d - 1)).map (fun i => (alpha.pow m (i + 1)).minimalPoly m) with
  | [] => 0
  | h :: t => t.foldl (fun acc e => PolyGF2.lcm acc e) h

/-- Embedding of `BCH::from_max_errors`. -/
def fromMaxErrors (m t : Nat) : BCHCodec :=
  let distance := 2 * t + 1
  let alpha := GF2TM.primitiveElement m
  let code_length := 2^m - 1
  let g := genPoly m distance alpha
  ⟨alpha, distance, code_length, code_length - PolyGF2.degree g, g⟩

/-- Embedding of `BCH::from_distance`. -/
def fromDistance (m d : Nat) : BCHCodec := fromMaxErrors m ((d - 1) / 2)

/-- Embedding of `BCH::encode`.  `none` models a Rust panic: the shift `1 << (n - len)`
overflows a `u32` when the shift amount is ≥ 32, and `% generator_poly`
panics when the generator is zero. -/
def encode (c : BCHCodec) (message : Nat) : Option (Except String Nat) :=
  let ml := PolyGF2.degree message + 1
  if ml > c.message_length then some (Except.error "Message is too long")
  else if c.code_length - ml < 32 then
    let padded := PolyGF2.mul message (2 ^ (c.code_length - ml))
    match PolyGF2.divmod padded c.generator_poly with
    | none => none
    | some qr => some (Except.ok (padded ^^^ qr.2))
  else none

/-- One candidate error count `v` of `BCH::error_locator` (Peterson): build
the `v×v` syndrome matrix `M[i][j] = S[i+j]` and right side `-S[v+i]`, try
to solve, and on `Singular` retry with `v - 1`.  The solution gets the
leading coefficient 1 appended and is wrapped in `Polynomial::new` (which
strips trailing zeros). -/
def errLocGo (m : Nat) (syn : List GF2TM) : Nat → Option (List GF2TM)
  | 0 => none
  | v+1 =>
    let vv := v + 1
    let mat := (List.range vv).map
      (fun i => (List.range vv).map (fun j => syn.getD (i + j) (GF2TM.mk 0 0)))
    let rhs := ((syn.drop vv).take vv).map GF2TM.neg
    match matSolve m mat rhs with
    | some sol => some (trimZeros (sol ++ [GF2TM.one m]))
    | none => errLocGo m syn v

/-- Embedding of `BCH::error_locator`, trying `v = t, t-1, …, 1` where `t = |S| / 2`. -/
def errorLocator (m : Nat) (syn : List GF2TM) : Option (List GF2TM) :=
  errLocGo m syn (syn.length / 2)

/-- Embedding of `BCH::chien_search`: the positions `i < n` at which the locator
polynomial evaluates to zero at `α^i`. -/
def chienSearch (m : Nat) (c : BCHCodec) (loc : List GF2TM) : List Nat :=
  (List.range c.code_length).filter
    (fun i => (polyEval m loc (c.primitive_element.pow m i)).value == 0)

/-- Body of `BCH::decode` after the length check.  `none` models a Rust
panic: `1u32 << e` for a position `e ≥ 32`, overflow of the `u32` addition
`received.poly + error` (note: integer addition, not XOR, as in the
source), and `>>` by a degree ≥ 32. -/
def decodeBody (m : Nat) (c : BCHCodec) (received : Nat) : Option Nat :=
  let coeffs := (List.range c.code_length).map
    (fun i => GF2TM.fromU32 m ((received >>> i) &&& 1))
  let rcvPoly := trimZeros coeffs
  let syn := (List.range (c.distance - 1)).map
    (fun i => polyEval m rcvPoly (c.primitive_element.pow m (i + 1)))
  let errOpt : Option Nat :=
    match errorLocator m syn with
    | some loc =>
      (chienSearch m c loc).foldl
        (fun acc e => acc.bind (fun a => if e < 32 then some (a ^^^ 2^e) else none))
        (some 0)
    | none => some 0
  match errOpt with
  | none => none
  | some err =>
    if received + err < 2^32 then
      if PolyGF2.degree c.generator_poly < 32 then
        some ((received + err) >>> PolyGF2.degree c.generator_poly)
      else none
    else none

/-- Embedding of `BCH::decode`: the wrong-length check, then the syndrome / locator /
Chien pipeline ending in `Ok(corrected >> deg g)`. -/
def decode (m : Nat) (c : BCHCodec) (received : Nat) : Option (Except String Nat) :=
  if PolyGF2.degree received + 1 ≠ c.code_length then
    some (Except.error "Received message has wrong length")
  else (decodeBody m c received).map Except.ok

end BCH

namespace RS

/-- The evaluations produced inside `ReedSolomon::encode`: the `i`-th entry
is `msg` evaluated at `GF2TM::new(PolyGF2 { poly: i })` for
`i < msg.len() + distance`. -/
def rsEvals (m d : Nat) (msg : List GF2TM) : List GF2TM :=
  (List.range (msg.length + d)).map (fun i => polyEval m msg (GF2TM.new m i))

/-- Embedding of `ReedSolomon::encode`: the evaluations, wrapped in `Polynomial::new`
(which strips trailing zero coefficients). -/
def encode (m d : Nat) (msg : List GF2TM) : List GF2TM := trimZeros (rsEvals m d msg)

end RS

/-- Embedding of `ConcatenatedCode::encode`: RS-encode the message, then BCH-encode each
outer symbol with the sentinel bit `2^N` XOR-ed in (`PolyGF2` addition).
The Rust `unwrap` on the inner `encode` result — and any panic inside it —
is modelled as `none`. -/
def concatEncode (m n : Nat) (d : Nat) (inner : BCHCodec) (message : List GF2TM) :
    Option (List Nat) :=
  (RS.encode m d message).foldr
    (fun letter acc =>
      match BCH.encode inner (letter.value ^^^ 2^n), acc with
      | some (Except.ok cw), some rest => some (cw :: rest)
      | _, _ => none)
    (some [])

/-- Encode-then-decode composition for a BCH codec (the no-error round trip
of spec §8.7); `none` when encoding fails or panics. -/
def bchRoundTrip (m : Nat) (c : BCHCodec) (msg : Nat) : Option (Except String Nat) :=
  match BCH.encode c msg with
  | some (Except.ok cw) => BCH.decode m c cw
  | _ => none

/-- Embedding of `GF2m`: the runtime-`m` field element of `gf2m.rs` (value, m, irr). -/
structure GF2m where
  value : Nat
  m : Nat
  irr : Nat
deriving DecidableEq

namespace GF2m

/-- Embedding of `GF2m::new`: reduces the value by `x^m` (low `m` bits). -/
def new (v mm i : Nat) : GF2m := ⟨PolyGF2.pmodT v (2^mm), mm, i⟩

/-- Embedding of `impl Mul for GF2m`: carry-less product of the values with no reduction
modulo `irr` whatsoever. -/
def mul (a b : GF2m) : GF2m := ⟨PolyGF2.mul a.value b.value, a.m, a.irr⟩

end GF2m

deriving instance DecidableEq for Except

/-! ### Bit-length lemmas -/

theorem bitsLen_zero (f : Nat) : bitsLen f 0 = 0 := by
  cases f <;> simp [bitsLen]

theorem bitsLen_le : ∀ (f n : Nat), bitsLen f n ≤ f := by
  intro f
  induction f with
  | zero => intro n; simp [bitsLen]
  | succ f ih =>
    intro n
    unfold bitsLen
    split
    · omega
    · exact Nat.succ_le_succ (ih _)

theorem bitsLen_pos : ∀ (f n : Nat), n ≠ 0 → 0 < f → 0 < bitsLen f n := by
  intro f n h hf
  cases f with
  | zero => omega
  | succ f => unfold bitsLen; simp [h]

theorem lt_two_pow_bitsLen : ∀ (f n : Nat), n < 2^f → n < 2^(bitsLen f n) := by
  intro f
  induction f with
  | zero => intro n h; simpa [bitsLen] using h
  | succ f ih =>
    intro n h
    unfold bitsLen
    split
    · simp [*]
    · have h2 : 2^(f+1) = 2 * 2^f := by rw [Nat.pow_succ]; ring
      have hd : n / 2 < 2^f := by omega
      have := ih (n / 2) hd
      have h3 : 2^(bitsLen f (n / 2) + 1) = 2 * 2^(bitsLen f (n / 2)) := by
        rw [Nat.pow_succ]; ring
      omega

theorem two_pow_le_bitsLen : ∀ (f n : Nat), n ≠ 0 → 2^(bitsLen f n - 1) ≤ n := by
  intro f
  induction f with
  | zero => intro n h; simp [bitsLen]; omega
  | succ f ih =>
    intro n h
    unfold bitsLen
    simp only [h, if_false]
    by_cases hd : n / 2 = 0
    · simp [hd, bitsLen_zero]; omega
    · have hle := ih (n / 2) hd
      set L := bitsLen f (n / 2) with hL
      by_cases hb : L = 0
      · simp [hb]; omega
      · have h3 : 2^L = 2 * 2^(L - 1) := by
          have h4 : L - 1 + 1 = L := by omega
          calc 2^L = 2^(L - 1 + 1) := by rw [h4]
          _ = 2 * 2^(L - 1) := by rw [Nat.pow_succ]; ring
        simp only [Nat.add_sub_cancel]
        omega

theorem bitsLen_le_of_lt : ∀ (f n k : Nat), n < 2^k → bitsLen f n ≤ k := by
  intro f
  induction f with
  | zero => intro n k _; simp [bitsLen]
  | succ f ih =>
    intro n k h
    unfold bitsLen
    split
    · omega
    · rename_i hn
      have hk : k ≠ 0 := by
        intro hk0
        rw [hk0] at h
        simp at h
        omega
      have h2 : 2^k = 2 * 2^(k-1) := by
        have h4 : k - 1 + 1 = k := by omega
        calc 2^k = 2^(k - 1 + 1) := by rw [h4]
        _ = 2 * 2^(k - 1) := by rw [Nat.pow_succ]; ring
      have hd : n / 2 < 2^(k-1) := by omega
      have := ih (n / 2) (k - 1) hd
      omega

theorem bitsLen_eq_zero_iff (f n : Nat) (hf : 0 < f) : bitsLen f n = 0 ↔ n = 0 := by
  constructor
  · intro h
    by_contra hn
    have := bitsLen_pos f n hn hf
    omega
  · intro h; simp [h, bitsLen_zero]

/-! ### XOR lemmas -/

theorem xor31 : ∀ x, x < 32 → x ^^^ 31 = 31 - x := by decide

theorem xor_mod_two_pow (x y k : Nat) :
    (x ^^^ y) % 2^k = (x % 2^k) ^^^ (y % 2^k) := by
  apply Nat.eq_of_testBit_eq
  intro i
  simp only [Nat.testBit_mod_two_pow, Nat.testBit_xor]
  by_cases h : i < k <;> simp [h]

theorem xor_shiftRight (x y k : Nat) :
    (x ^^^ y) >>> k = (x >>> k) ^^^ (y >>> k) := by
  apply Nat.eq_of_testBit_eq
  intro i
  simp [Nat.testBit_shiftRight, Nat.testBit_xor]

theorem xor_disjoint_add (k q r : Nat) (h : r < 2^k) :
    (2^k * q) ^^^ r = 2^k * q + r := by
  have hmod : ((2^k * q) ^^^ r) % 2^k = r := by
    rw [xor_mod_two_pow, Nat.mul_mod_right, Nat.mod_eq_of_lt h, Nat.zero_xor]
  have hdiv : ((2^k * q) ^^^ r) >>> k = q := by
    rw [xor_shiftRight, Nat.shiftRight_eq_div_pow, Nat.shiftRight_eq_div_pow,
      Nat.mul_div_cancel_left q (Nat.pos_pow_of_pos k (by norm_num)),
      Nat.div_eq_of_lt h, Nat.xor_zero]
  have hsplit := Nat.div_add_mod ((2^k * q) ^^^ r) (2^k)
  rw [Nat.shiftRight_eq_div_pow] at hdiv
  rw [hdiv, hmod] at hsplit
  omega

theorem two_mul_xor (x y : Nat) : 2 * (x ^^^ y) = (2*x) ^^^ (2*y) := by
  have hs : ∀ z : Nat, 2 * z = z <<< 1 := by
    intro z; rw [Nat.shiftLeft_eq]; ring
  rw [hs, hs, hs]
  apply Nat.eq_of_testBit_eq
  intro i
  simp only [Nat.testBit_shiftLeft, Nat.testBit_xor]
  by_cases h : 1 ≤ i <;> simp [h]

theorem xor_xor_comm4 (a b c d : Nat) :
    (a ^^^ c) ^^^ (b ^^^ d) = (a ^^^ b) ^^^ (c ^^^ d) := by
  apply Nat.eq_of_testBit_eq
  intro i
  simp only [Nat.testBit_xor]
  cases a.testBit i <;> cases b.testBit i <;> cases c.testBit i <;> cases d.testBit i <;> rfl

theorem xor_cancel_pair (a r x : Nat) :
    (a ^^^ x) ^^^ (r ^^^ x) = a ^^^ r := by
  rw [xor_xor_comm4, Nat.xor_self, Nat.xor_zero]

theorem xor_high_cancel (k x y : Nat) (hx1 : 2^k ≤ x) (hx2 : x < 2^(k+1))
    (hy1 : 2^k ≤ y) (hy2 : y < 2^(k+1)) : x ^^^ y < 2^k := by
  have h2 : 2^(k+1) = 2 * 2^k := by rw [Nat.pow_succ]; ring
  have hx : x = (2^k * 1) ^^^ (x - 2^k) := by
    rw [xor_disjoint_add k 1 (x - 2^k) (by omega)]; omega
  have hy : y = (2^k * 1) ^^^ (y - 2^k) := by
    rw [xor_disjoint_add k 1 (y - 2^k) (by omega)]; omega
  rw [hx, hy, xor_xor_comm4, Nat.xor_self, Nat.zero_xor]
  exact Nat.xor_lt_two_pow (by omega) (by omega)

/-! ### Carry-less multiplication lemmas -/

theorem mulGo_zero_left : ∀ (f b : Nat), PolyGF2.mulGo f 0 b = 0 := by
  intro f
  induction f with
  | zero => intro b; simp [PolyGF2.mulGo]
  | succ f ih =>
    intro b
    unfold PolyGF2.mulGo
    split
    · rfl
    · simp [ih]

theorem mulGo_zero_right : ∀ (f a : Nat), PolyGF2.mulGo f a 0 = 0 := by
  intro f a
  cases f <;> simp [PolyGF2.mulGo]

theorem mulGo_xor_left : ∀ (f a c b : Nat),
    PolyGF2.mulGo f (a ^^^ c) b = PolyGF2.mulGo f a b ^^^ PolyGF2.mulGo f c b := by
  intro f
  induction f with
  | zero => intro a c b; simp [PolyGF2.mulGo]
  | succ f ih =>
    intro a c b
    unfold PolyGF2.mulGo
    by_cases hb : b = 0
    · simp [hb]
    · simp only [hb, if_false]
      have harg : 2 * (a ^^^ c) % 2^32 = (2*a % 2^32) ^^^ (2*c % 2^32) := by
        rw [two_mul_xor, xor_mod_two_pow]
      rw [harg, ih]
      by_cases ho : b % 2 = 1 <;> simp [ho, xor_xor_comm4]

theorem mulGo_two_pow_left : ∀ (f b s : Nat), b < 2^f →
    PolyGF2.mulGo f (2^s % 2^32) b = 2^s * b % 2^32 := by
  intro f
  induction f with
  | zero =>
    intro b s hb
    have hb0 : b = 0 := by omega
    simp [hb0, PolyGF2.mulGo]
  | succ f ih =>
    intro b s hb
    unfold PolyGF2.mulGo
    by_cases hb0 : b = 0
    · simp [hb0]
    · simp only [hb0, if_false]
      have harg : 2 * (2^s % 2^32) % 2^32 = 2^(s+1) % 2^32 := by
        rw [Nat.mul_mod, Nat.mod_mod_of_dvd _ (dvd_refl _), ← Nat.mul_mod, Nat.pow_succ]
        ring_nf
      have hf2 : 2^(f+1) = 2 * 2^f := by rw [Nat.pow_succ]; ring
      have hd : b / 2 < 2^f := by omega
      rw [harg, ih (b / 2) (s+1) hd]
      have hps : 2^(s+1) = 2^s * 2 := Nat.pow_succ 2 s
      have hslt : 2^s < 2^(s+1) := by
        have hpos : 0 < 2^s := Nat.pos_pow_of_pos s (by norm_num)
        omega
      by_cases ho : b % 2 = 1
      · simp only [ho, if_true]
        rw [← xor_mod_two_pow]
        have hx : 2^s ^^^ 2^(s+1) * (b/2) = 2^(s+1) * (b/2) + 2^s := by
          rw [Nat.xor_comm]
          exact xor_disjoint_add (s+1) (b/2) (2^s) hslt
        rw [hx]
        have hb2 : b = 2 * (b/2) + 1 := by omega
        congr 1
        calc 2^(s+1) * (b/2) + 2^s = 2^s * (2 * (b/2) + 1) := by rw [hps]; ring
        _ = 2^s * b := by rw [← hb2]
      · simp only [ho, if_false, Nat.zero_xor]
        have hb2 : b = 2 * (b/2) := by omega
        congr 1
        calc 2^(s+1) * (b/2) = 2^s * (2 * (b/2)) := by rw [hps]; ring
        _ = 2^s * b := by rw [← hb2]

theorem mulGo_two_pow_right : ∀ (f a s : Nat), a < 2^32 → s < f →
    PolyGF2.mulGo f a (2^s) = a * 2^s % 2^32 := by
  intro f
  induction f with
  | zero => intro a s _ hs; omega
  | succ f ih =>
    intro a s ha hs
    unfold PolyGF2.mulGo
    have hpos : (0:Nat) < 2^s := Nat.pos_pow_of_pos s (by norm_num)
    simp only [Nat.pos_iff_ne_zero.mp hpos, if_false]
    cases s with
    | zero =>
      simp [mulGo_zero_right]
      omega
    | succ s =>
      have hps : 2^(s+1) = 2^s * 2 := Nat.pow_succ 2 s
      have heven : ¬ (2^(s+1) % 2 = 1) := by omega
      have hdiv : 2^(s+1) / 2 = 2^s := by omega
      rw [if_neg heven, hdiv, Nat.zero_xor,
        ih (2*a % 2^32) s (Nat.mod_lt _ (by norm_num)) (by omega)]
      rw [Nat.mul_mod, Nat.mod_mod_of_dvd _ (dvd_refl _), ← Nat.mul_mod]
      congr 1
      rw [hps]; ring

theorem mulGo_lt : ∀ (f a b : Nat), a < 2^32 → PolyGF2.mulGo f a b < 2^32 := by
  intro f
  induction f with
  | zero => intro a b _; simp [PolyGF2.mulGo]
  | succ f ih =>
    intro a b ha
    unfold PolyGF2.mulGo
    split
    · exact Nat.pos_pow_of_pos 32 (by norm_num)
    · apply Nat.xor_lt_two_pow
      · split
        · exact ha
        · exact Nat.pos_pow_of_pos 32 (by norm_num)
      · exact ih _ _ (Nat.mod_lt _ (by norm_num))

/-! ### Division loop correctness -/

theorem divmodGo_spec : ∀ (fuel b q r : Nat), b ≠ 0 → b < 2^32 → q < 2^32 → r < 2^32 →
    bitsLen 32 r ≤ fuel →
    PolyGF2.mul (PolyGF2.divmodGo b fuel q r).1 b ^^^ (PolyGF2.divmodGo b fuel q r).2
        = PolyGF2.mul q b ^^^ r ∧
      (PolyGF2.divmodGo b fuel q r).1 < 2^32 ∧
      (PolyGF2.divmodGo b fuel q r).2 < 2^32 ∧
      ((PolyGF2.divmodGo b fuel q r).2 = 0 ∨
        bitsLen 32 (PolyGF2.divmodGo b fuel q r).2 < bitsLen 32 b) := by
  intro fuel
  induction fuel with
  | zero =>
    intro b q r hb0 hbW hqW hrW hfuel
    have hr0 : r = 0 := by
      by_contra hr
      have := bitsLen_pos 32 r hr (by norm_num)
      omega
    subst hr0
    exact ⟨rfl, hqW, hrW, Or.inl rfl⟩
  | succ fuel ih =>
    intro b q r hb0 hbW hqW hrW hfuel
    unfold PolyGF2.divmodGo
    by_cases hc : r ≠ 0 ∧ clz32 r ≤ clz32 b
    · obtain ⟨hr0, hclz⟩ := hc
      rw [if_pos ⟨hr0, hclz⟩]
      have hszb_le : bitsLen 32 b ≤ 32 := bitsLen_le 32 b
      have hszr_le : bitsLen 32 r ≤ 32 := bitsLen_le 32 r
      have hszb_pos : 0 < bitsLen 32 b := bitsLen_pos 32 b hb0 (by norm_num)
      have hszr_pos : 0 < bitsLen 32 r := bitsLen_pos 32 r hr0 (by norm_num)
      have hble : bitsLen 32 b ≤ bitsLen 32 r := by
        unfold clz32 at hclz; omega
      have hs_eq : clz32 b - clz32 r = bitsLen 32 r - bitsLen 32 b := by
        unfold clz32; omega
      set s := clz32 b - clz32 r with hs
      have hsum : bitsLen 32 b + s = bitsLen 32 r := by omega
      have hs31 : s ≤ 31 := by omega
      have hb_lt : b < 2^(bitsLen 32 b) := lt_two_pow_bitsLen 32 b hbW
      have hb_ge : 2^(bitsLen 32 b - 1) ≤ b := two_pow_le_bitsLen 32 b hb0
      have hr_lt : r < 2^(bitsLen 32 r) := lt_two_pow_bitsLen 32 r hrW
      have hr_ge : 2^(bitsLen 32 r - 1) ≤ r := two_pow_le_bitsLen 32 r hr0
      have hsp : (0:Nat) < 2^s := Nat.pos_pow_of_pos s (by norm_num)
      have hbs_lt : b * 2^s < 2^(bitsLen 32 r) := by
        calc b * 2^s < 2^(bitsLen 32 b) * 2^s := by
              exact mul_lt_mul_of_pos_right hb_lt hsp
        _ = 2^(bitsLen 32 b + s) := by rw [Nat.pow_add]
        _ = 2^(bitsLen 32 r) := by rw [hsum]
      have hbs_ge : 2^(bitsLen 32 r - 1) ≤ b * 2^s := by
        calc 2^(bitsLen 32 r - 1) = 2^(bitsLen 32 b - 1 + s) := by congr 1; omega
        _ = 2^(bitsLen 32 b - 1) * 2^s := by rw [Nat.pow_add]
        _ ≤ b * 2^s := Nat.mul_le_mul_right _ hb_ge
      have hW_le : 2^(bitsLen 32 r) ≤ 2^32 := Nat.pow_le_pow_right (by norm_num) hszr_le
      have hbsW : b * 2^s < 2^32 := lt_of_lt_of_le hbs_lt hW_le
      have hmod : b * 2^s % 2^32 = b * 2^s := Nat.mod_eq_of_lt hbsW
      rw [hmod]
      have hk1 : bitsLen 32 r - 1 + 1 = bitsLen 32 r := by omega
      have hr'_lt : r ^^^ (b * 2^s) < 2^(bitsLen 32 r - 1) :=
        xor_high_cancel (bitsLen 32 r - 1) r (b * 2^s) hr_ge (by rw [hk1]; exact hr_lt)
          hbs_ge (by rw [hk1]; exact hbs_lt)
      have hsW : (2:Nat)^s < 2^32 := Nat.pow_lt_pow_right (by norm_num) (by omega)
      have hq' : q ^^^ 2^s < 2^32 := Nat.xor_lt_two_pow hqW hsW
      have hr'W : r ^^^ (b * 2^s) < 2^32 :=
        lt_of_lt_of_le hr'_lt (Nat.pow_le_pow_right (by norm_num) (by omega))
      have hfuel' : bitsLen 32 (r ^^^ (b * 2^s)) ≤ fuel :=
        le_trans (bitsLen_le_of_lt 32 _ _ hr'_lt) (by omega)
      obtain ⟨hinv, hq'', hr'', hdisj⟩ :=
        ih b (q ^^^ 2^s) (r ^^^ (b * 2^s)) hb0 hbW hq' hr'W hfuel'
      refine ⟨?_, hq'', hr'', hdisj⟩
      rw [hinv]
      have h2s : (2:Nat)^s % 2^32 = 2^s := Nat.mod_eq_of_lt hsW
      have hmulq : PolyGF2.mul (q ^^^ 2^s) b = PolyGF2.mul q b ^^^ (b * 2^s) := by
        unfold PolyGF2.mul
        rw [mulGo_xor_left]
        have hml := mulGo_two_pow_left 32 b s hbW
        rw [h2s] at hml
        rw [hml, Nat.mul_comm ((2:Nat)^s) b, hmod]
      rw [hmulq, xor_cancel_pair]
    · rw [if_neg hc]
      refine ⟨rfl, hqW, hrW, ?_⟩
      by_cases hr : r = 0
      · exact Or.inl hr
      · right
        have hclz : ¬ clz32 r ≤ clz32 b := by
          intro hle
          exact hc ⟨hr, hle⟩
        have hszb_le : bitsLen 32 b ≤ 32 := bitsLen_le 32 b
        have hszr_le : bitsLen 32 r ≤ 32 := bitsLen_le 32 r
        unfold clz32 at hclz
        show bitsLen 32 r < bitsLen 32 b
        omega

theorem divmod_correct (a b : Nat) (ha : a < 2^32) (hbW : b < 2^32) (hb0 : b ≠ 0) :
    PolyGF2.divmod a b = some (PolyGF2.pdivT a b, PolyGF2.pmodT a b) ∧
      PolyGF2.mul (PolyGF2.pdivT a b) b ^^^ PolyGF2.pmodT a b = a ∧
      PolyGF2.pdivT a b < 2^32 ∧ PolyGF2.pmodT a b < 2^32 ∧
      (PolyGF2.pmodT a b = 0 ∨ bitsLen 32 (PolyGF2.pmodT a b) < bitsLen 32 b) := by
  have hspec := divmodGo_spec 32 b 0 a hb0 hbW (Nat.pos_pow_of_pos 32 (by norm_num)) ha
    (bitsLen_le 32 a)
  obtain ⟨hinv, hq, hr, hdisj⟩ := hspec
  have hmul0 : PolyGF2.mul 0 b = 0 := by
    unfold PolyGF2.mul; exact mulGo_zero_left 32 b
  rw [hmul0, Nat.zero_xor] at hinv
  refine ⟨?_, hinv, hq, hr, hdisj⟩
  unfold PolyGF2.divmod
  rw [if_neg hb0]
  rfl

theorem degree_eq_bitsLen (n : Nat) (hn : n ≠ 0) (_hW : n < 2^32) :
    PolyGF2.degree n = bitsLen 32 n - 1 := by
  have h1 : 0 < bitsLen 32 n := bitsLen_pos 32 n hn (by norm_num)
  have h2 : bitsLen 32 n ≤ 32 := bitsLen_le 32 n
  unfold PolyGF2.degree clz32
  rw [xor31 _ (by omega)]
  omega

theorem pmodT_lt_pow_degree (a b : Nat) (ha : a < 2^32) (hbW : b < 2^32) (hb0 : b ≠ 0) :
    PolyGF2.pmodT a b < 2^(PolyGF2.degree b) := by
  obtain ⟨-, -, -, hrW, hdisj⟩ := divmod_correct a b ha hbW hb0
  rcases hdisj with h0 | hlt
  · rw [h0]; exact Nat.pos_pow_of_pos _ (by norm_num)
  · have h1 := lt_two_pow_bitsLen 32 (PolyGF2.pmodT a b) hrW
    have h2 : 2^(bitsLen 32 (PolyGF2.pmodT a b)) ≤ 2^(bitsLen 32 b - 1) :=
      Nat.pow_le_pow_right (by norm_num) (by omega)
    rw [degree_eq_bitsLen b hb0 hbW]
    omega

theorem bitsLen_two_pow (k : Nat) (hk : k ≤ 31) : bitsLen 32 (2^k) = k + 1 := by
  have hkW : (2:Nat)^k < 2^32 := Nat.pow_lt_pow_right (by norm_num) (by omega)
  have h1 : bitsLen 32 (2^k) ≤ k + 1 :=
    bitsLen_le_of_lt 32 _ (k+1) (Nat.pow_lt_pow_right (by norm_num) (by omega))
  have h2 := lt_two_pow_bitsLen 32 (2^k) hkW
  have h3 : k < bitsLen 32 (2^k) := by
    by_contra h
    push_neg at h
    have := Nat.pow_le_pow_right (by norm_num : 1 ≤ 2) h
    omega
  omega

theorem pmodT_two_pow (a k : Nat) (ha : a < 2^32) (hk : k ≤ 31) :
    PolyGF2.pmodT a (2^k) = a % 2^k := by
  have hb0 : (2:Nat)^k ≠ 0 := by positivity
  have hbW : (2:Nat)^k < 2^32 := Nat.pow_lt_pow_right (by norm_num) (by omega)
  obtain ⟨-, hinv, hqW, hrW, hdisj⟩ := divmod_correct a (2^k) ha hbW hb0
  have hrlt : PolyGF2.pmodT a (2^k) < 2^k := by
    rcases hdisj with h0 | hlt
    · rw [h0]; exact Nat.pos_pow_of_pos _ (by norm_num)
    · rw [bitsLen_two_pow k hk] at hlt
      have := lt_two_pow_bitsLen 32 (PolyGF2.pmodT a (2^k)) hrW
      have h2 : 2^(bitsLen 32 (PolyGF2.pmodT a (2^k))) ≤ 2^k :=
        Nat.pow_le_pow_right (by norm_num) (by omega)
      omega
  have hmulq : PolyGF2.mul (PolyGF2.pdivT a (2^k)) (2^k) =
      PolyGF2.pdivT a (2^k) * 2^k % 2^32 := by
    unfold PolyGF2.mul
    exact mulGo_two_pow_right 32 _ k hqW (by omega)
  rw [hmulq] at hinv
  have := congrArg (fun z => z % 2^k) hinv
  simp only [xor_mod_two_pow] at this
  rw [Nat.mod_mod_of_dvd _ (Nat.pow_dvd_pow 2 (by omega : k ≤ 32)),
    Nat.mul_mod_left, Nat.zero_xor, Nat.mod_eq_of_lt hrlt] at this
  omega

theorem pmodT_small (a b : Nat) (h : bitsLen 32 a < bitsLen 32 b) :
    PolyGF2.pmodT a b = a := by
  have hb : bitsLen 32 b ≤ 32 := bitsLen_le 32 b
  have hcond : ¬ (a ≠ 0 ∧ clz32 a ≤ clz32 b) := by
    rintro ⟨-, hle⟩
    unfold clz32 at hle
    omega
  show (PolyGF2.divmodGo b 32 0 a).2 = a
  rw [show (32:Nat) = 31+1 from rfl]
  unfold PolyGF2.divmodGo
  rw [if_neg hcond]

theorem pmodT_zero_left (b : Nat) : PolyGF2.pmodT 0 b = 0 := by
  show (PolyGF2.divmodGo b 32 0 0).2 = 0
  rw [show (32:Nat) = 31+1 from rfl]
  unfold PolyGF2.divmodGo
  rw [if_neg (by simp)]

/-! ### GF2TM helper lemmas -/

theorem pow_irr (m : Nat) (a : GF2TM) : ∀ e, (GF2TM.pow m a e).irr = PolyGF2.irreducible m := by
  intro e
  induction e with
  | zero => rfl
  | succ e ih => simp [GF2TM.pow, GF2TM.mul, ih]

theorem pow_zero_succ (m : Nat) (i0 : Nat) :
    ∀ e, GF2TM.pow m ⟨0, i0⟩ (e + 1) = ⟨0, PolyGF2.irreducible m⟩ := by
  intro e
  have hirr := pow_irr m ⟨0, i0⟩ e
  show (GF2TM.pow m ⟨0, i0⟩ e).mul ⟨0, i0⟩ = _
  unfold GF2TM.mul
  have hm0 : PolyGF2.mul (GF2TM.pow m ⟨0, i0⟩ e).value 0 = 0 := by
    unfold PolyGF2.mul; exact mulGo_zero_right 32 _
  rw [hm0, pmodT_zero_left, hirr]

theorem pow_value_lt (m : Nat) (a : GF2TM) (hm : 1 ≤ m) (hm31 : m ≤ 31)
    (hI0 : PolyGF2.irreducible m ≠ 0) (hIW : PolyGF2.irreducible m < 2^32)
    (hIdeg : PolyGF2.degree (PolyGF2.irreducible m) = m) :
    ∀ e, (GF2TM.pow m a e).value < 2^m := by
  intro e
  induction e with
  | zero =>
    show (GF2TM.new m 1).value < 2^m
    unfold GF2TM.new
    show PolyGF2.pmodT 1 (2^m) < 2^m
    rw [pmodT_two_pow 1 m (by norm_num) hm31]
    exact Nat.mod_lt _ (Nat.pos_pow_of_pos _ (by norm_num))
  | succ e ih =>
    show ((GF2TM.pow m a e).mul a).value < 2^m
    unfold GF2TM.mul
    show PolyGF2.pmodT _ (GF2TM.pow m a e).irr < 2^m
    rw [pow_irr]
    have hmW : (2:Nat)^m ≤ 2^32 := Nat.pow_le_pow_right (by norm_num) (by omega)
    have harg : PolyGF2.mul (GF2TM.pow m a e).value a.value < 2^32 := by
      unfold PolyGF2.mul
      exact mulGo_lt 32 _ _ (by omega)
    have := pmodT_lt_pow_degree _ _ harg hIW hI0
    rw [hIdeg] at this
    exact this

/-! ### Sanity checks against the Rust unit tests -/

/-- Reproduces the irreducible-polynomial table of test_poly_irreducible in poly_gf2.rs. -/
theorem irreducible_table :
    PolyGF2.irreducible 1 = 0b10 ∧ PolyGF2.irreducible 2 = 0b111 ∧
      PolyGF2.irreducible 3 = 0b1011 ∧ PolyGF2.irreducible 4 = 0b10011 ∧
      PolyGF2.irreducible 5 = 0b100101 ∧ PolyGF2.irreducible 6 = 0b1000011 ∧
      PolyGF2.irreducible 7 = 0b10000011 := by decide

/-- The BCH codec of the tests, fully evaluated: α = x over GF(16) with
irr = x⁴+x+1, d = 7, n = 15, k = 5, g = x¹⁰+x⁸+x⁵+x⁴+x²+x+1. -/
theorem bch4_codec_eq :
    BCH.fromDistance 4 7 = ⟨⟨2, 19⟩, 7, 15, 5, 0b10100110111⟩ := by decide

/-- Reproduces test_decode_2_err of the bch crate: two flipped bits are corrected. -/
theorem bch_test_decode_two_errors :
    BCH.decode 4 (BCH.fromDistance 4 7) (0b110111000010100 ^^^ 0b10000000100000) =
      some (Except.ok 0b11011) := by decide

/-- Reproduces test_decode_3_err of the bch crate: three flipped bits are corrected. -/
theorem bch_test_decode_three_errors :
    BCH.decode 4 (BCH.fromDistance 4 7) (0b110111000010100 ^^^ 0b10010000100000) =
      some (Except.ok 0b11011) := by decide

/-- Reproduces the test_encode vector of the reed_solomon crate (S5). -/
theorem rs_test_encode :
    (RS.encode 8 5 [GF2TM.new 8 3, GF2TM.new 8 2, GF2TM.new 8 8]).map GF2TM.value =
      [3, 9, 39, 45, 139, 129, 175, 165] := by decide

/-! ### Claim theorems -/

/-- C3: for all GF(2) polynomials `a`, `b` (as u32 values) with `b ≠ 0`,
`divmod(a, b) = (q, r)` satisfies `q·b XOR r = a` and `deg r < deg b`, the
zero polynomial counting as smaller than every non-zero polynomial. -/
theorem claim_C3_divmod_law (a b q r : Nat) (ha : a < 2^32) (hb : b < 2^32) (hb0 : b ≠ 0)
    (h : PolyGF2.divmod a b = some (q, r)) :
    PolyGF2.mul q b ^^^ r = a ∧ (r = 0 ∨ PolyGF2.degree r < PolyGF2.degree b) := by
  obtain ⟨heq, hinv, hqW, hrW, hdisj⟩ := divmod_correct a b ha hb hb0
  rw [heq] at h
  simp only [Option.some.injEq, Prod.mk.injEq] at h
  obtain ⟨h1, h2⟩ := h
  subst h1
  subst h2
  refine ⟨hinv, ?_⟩
  rcases hdisj with h0 | hlt
  · exact Or.inl h0
  · by_cases hr0 : PolyGF2.pmodT a b = 0
    · exact Or.inl hr0
    · right
      rw [degree_eq_bitsLen _ hr0 hrW, degree_eq_bitsLen b hb0 hb]
      have := bitsLen_pos 32 _ hr0 (by norm_num)
      omega

/-- Witness for C3 at `a = 0b1101`, `b = 0b11`: quotient `0b100`,
remainder `0b1`. -/
theorem claim_C3_divmod_law_witness :
    PolyGF2.mul 4 3 ^^^ 1 = 13 ∧ (1 = 0 ∨ PolyGF2.degree 1 < PolyGF2.degree 3) :=
  claim_C3_divmod_law 13 3 4 1 (by norm_num) (by norm_num) (by norm_num) (by decide)

/-- C6: `BCH::decode` returns the wrong-length error exactly when
`degree(received) + 1 ≠ code_length`; in particular the BCH⟨4⟩ distance-7
codec rejects the zero polynomial (degree 63, inferred length 64 ≠ 15). -/
theorem claim_C6_wrong_length :
    (∀ (m0 : Nat) (c : BCHCodec) (rcv : Nat),
        BCH.decode m0 c rcv = some (Except.error "Received message has wrong length") ↔
          PolyGF2.degree rcv + 1 ≠ c.code_length) ∧
      BCH.decode 4 (BCH.fromDistance 4 7) 0 =
        some (Except.error "Received message has wrong length") := by
  constructor
  · intro m0 c rcv
    unfold BCH.decode
    by_cases h : PolyGF2.degree rcv + 1 ≠ c.code_length
    · simp [h]
    · rw [if_neg h]
      push_neg at h
      cases hb : BCH.decodeBody m0 c rcv <;> simp [hb, h]
  · decide

/-- Witness for C6: the word `0b101` has inferred length 3 ≠ 15, so the
distance-7 codec rejects it. -/
theorem claim_C6_wrong_length_witness :
    BCH.decode 4 (BCH.fromDistance 4 7) 0b101 =
      some (Except.error "Received message has wrong length") :=
  (claim_C6_wrong_length.1 4 (BCH.fromDistance 4 7) 0b101).mpr (by decide)

/-- C7 (amended): `divmod` (hence `/` and `%`) fails exactly on the zero
divisor, but `GF2TM::inv` of the zero element does not fail — it returns
the zero element (`0^(2^m−2) = 0` for `m ≥ 2`, computed by the unguarded
repeated-multiplication `pow`). -/
theorem claim_C7_amended :
    (∀ a b : Nat, PolyGF2.divmod a b = none ↔ b = 0) ∧
      (∀ m0 : Nat, 2 ≤ m0 →
        GF2TM.inv m0 ⟨0, PolyGF2.irreducible m0⟩ = ⟨0, PolyGF2.irreducible m0⟩) := by
  constructor
  · intro a b
    unfold PolyGF2.divmod
    by_cases h : b = 0 <;> simp [h]
  · intro m0 hm
    have h4 : 4 ≤ 2^m0 := by
      calc (4:Nat) = 2^2 := by norm_num
      _ ≤ 2^m0 := Nat.pow_le_pow_right (by norm_num) hm
    have he : 2^m0 - 2 = (2^m0 - 3) + 1 := by omega
    unfold GF2TM.inv
    rw [he]
    exact pow_zero_succ m0 _ _

/-- Counterexample for C7 as stated: `inv` applied to the zero element of
GF(2⁴) does not produce a `DivisionByZero` failure — the source `inv` is
infallible and returns the zero element. -/
theorem claim_C7_counterexample :
    GF2TM.inv 4 ⟨0, PolyGF2.irreducible 4⟩ = GF2TM.zero 4 := by decide

/-- Witness for C7 (amended) at `m = 2`. -/
theorem claim_C7_amended_witness :
    GF2TM.inv 2 ⟨0, PolyGF2.irreducible 2⟩ = ⟨0, PolyGF2.irreducible 2⟩ :=
  claim_C7_amended.2 2 (by norm_num)

/-- C8 (amended): `GF2TM::new` stores the low `m` bits of the input
(`v % x^m`), which — the irreducible having degree `m` — is already its own
residue modulo `irr`; but `From<u32>` stores the raw value with no
reduction at all. -/
theorem claim_C8_amended (m0 v : Nat) (hv : v < 2^32) (hm31 : m0 ≤ 31)
    (hIW : PolyGF2.irreducible m0 < 2^32)
    (hIdeg : PolyGF2.degree (PolyGF2.irreducible m0) = m0) :
    (GF2TM.new m0 v).value = v % 2^m0 ∧
      PolyGF2.pmodT ((GF2TM.new m0 v).value) (PolyGF2.irreducible m0) =
        (GF2TM.new m0 v).value ∧
      (GF2TM.fromU32 m0 v).value = v := by
  have h1 : (GF2TM.new m0 v).value = PolyGF2.pmodT v (2^m0) := rfl
  rw [h1, pmodT_two_pow v m0 hv hm31]
  refine ⟨rfl, ?_, rfl⟩
  have hI0 : PolyGF2.irreducible m0 ≠ 0 := by
    intro h0
    rw [h0] at hIdeg
    have hd0 : PolyGF2.degree 0 = 63 := by decide
    omega
  apply pmodT_small
  have hszI : bitsLen 32 (PolyGF2.irreducible m0) = m0 + 1 := by
    have hd := degree_eq_bitsLen (PolyGF2.irreducible m0) hI0 hIW
    have hpos := bitsLen_pos 32 _ hI0 (by norm_num)
    omega
  have hsz : bitsLen 32 (v % 2^m0) ≤ m0 :=
    bitsLen_le_of_lt 32 _ m0 (Nat.mod_lt _ (Nat.pos_pow_of_pos _ (by norm_num)))
  omega

/-- Counterexample for C8 as stated: converting 4 into GF(2²) via
`From<u32>` stores the raw value 4, not the low 2 bits reduced mod `irr`
(which would be 0). -/
theorem claim_C8_counterexample :
    (GF2TM.fromU32 2 4).value ≠ PolyGF2.pmodT (4 % 2^2) (PolyGF2.irreducible 2) := by decide

/-- Witness for C8 (amended) at `m = 4`, `v = 100`. -/
theorem claim_C8_amended_witness :
    (GF2TM.new 4 100).value = 100 % 2^4 ∧
      PolyGF2.pmodT ((GF2TM.new 4 100).value) (PolyGF2.irreducible 4) =
        (GF2TM.new 4 100).value ∧
      (GF2TM.fromU32 4 100).value = 100 :=
  claim_C8_amended 4 100 (by norm_num) (by norm_num) (by decide) (by decide)

/-- C9 (amended): the reducing GF2TM operations (add, sub, mul, div, pow,
inv) always return a value `< 2^m` when the stored irreducible has degree
`m`; `neg` preserves the bound and `new` enforces it; but the integer
conversion `From<u32>` and the `GF2m` multiplication do not reduce and can
violate it. -/
theorem claim_C9_amended (m0 : Nat) (a b : GF2TM)
    (hm : 2 ≤ m0) (hm31 : m0 ≤ 31)
    (hI0 : PolyGF2.irreducible m0 ≠ 0) (hIW : PolyGF2.irreducible m0 < 2^32)
    (hIdeg : PolyGF2.degree (PolyGF2.irreducible m0) = m0)
    (hairr : a.irr = PolyGF2.irreducible m0)
    (haW : a.value < 2^32) (hbW : b.value < 2^32) :
    (a.add b).value < 2^m0 ∧ (a.sub b).value < 2^m0 ∧ (a.mul b).value < 2^m0 ∧
      (GF2TM.div m0 a b).value < 2^m0 ∧ (∀ e, (GF2TM.pow m0 a e).value < 2^m0) ∧
      (GF2TM.inv m0 a).value < 2^m0 ∧
      (a.value < 2^m0 → (a.neg).value < 2^m0) ∧
      (∀ v, v < 2^32 → (GF2TM.new m0 v).value < 2^m0) := by
  have hxor : a.value ^^^ b.value < 2^32 := Nat.xor_lt_two_pow haW hbW
  have hmulW : ∀ x, PolyGF2.mul a.value x < 2^32 := by
    intro x
    unfold PolyGF2.mul
    exact mulGo_lt 32 _ _ haW
  have hpmod : ∀ x, x < 2^32 → PolyGF2.pmodT x (PolyGF2.irreducible m0) < 2^m0 := by
    intro x hx
    have := pmodT_lt_pow_degree x _ hx hIW hI0
    rw [hIdeg] at this
    exact this
  refine ⟨?_, ?_, ?_, ?_, ?_, ?_, ?_, ?_⟩
  · show PolyGF2.pmodT (a.value ^^^ b.value) a.irr < 2^m0
    rw [hairr]; exact hpmod _ hxor
  · show PolyGF2.pmodT (a.value ^^^ b.value) a.irr < 2^m0
    rw [hairr]; exact hpmod _ hxor
  · show PolyGF2.pmodT (PolyGF2.mul a.value b.value) a.irr < 2^m0
    rw [hairr]; exact hpmod _ (hmulW _)
  · show PolyGF2.pmodT (PolyGF2.mul a.value (GF2TM.inv m0 b).value) a.irr < 2^m0
    rw [hairr]; exact hpmod _ (hmulW _)
  · exact pow_value_lt m0 a (by omega) hm31 hI0 hIW hIdeg
  · exact pow_value_lt m0 a (by omega) hm31 hI0 hIW hIdeg _
  · intro h; exact h
  · intro v hv
    show PolyGF2.pmodT v (2^m0) < 2^m0
    rw [pmodT_two_pow v m0 hv hm31]
    exact Nat.mod_lt _ (Nat.pos_pow_of_pos _ (by norm_num))

/-- Counterexample for C9 as stated: `From<u32>` stores 4 in GF(2²), and
the unreduced `GF2m` multiplication turns 2·2 into 4, both violating `value < 2^m`. -/
theorem claim_C9_counterexample :
    ¬ ((GF2TM.fromU32 2 4).value < 2^2) ∧
      ¬ ((GF2m.mul (GF2m.new 2 2 7) (GF2m.new 2 2 7)).value < 2^2) := by decide

/-- Witness for C9 (amended) at `m = 4`, `a = 3`, `b = 7`. -/
theorem claim_C9_amended_witness :
    ((GF2TM.mk 3 (PolyGF2.irreducible 4)).add (GF2TM.mk 7 (PolyGF2.irreducible 4))).value
      < 2^4 :=
  (claim_C9_amended 4 ⟨3, PolyGF2.irreducible 4⟩ ⟨7, PolyGF2.irreducible 4⟩
    (by norm_num) (by norm_num) (by decide) (by decide) (by decide) rfl
    (by decide) (by decide)).1

/-- C10 (amended): for every codec whose message length is below 64 — all
codecs over GF(2^m) with m ≤ 6, in particular the BCH⟨4⟩
codecs — `encode(0)` returns `MessageTooLong`, because `degree(0) = 63`
makes the inferred message length 64. -/
theorem claim_C10_amended (c : BCHCodec) (hk : c.message_length < 64) :
    BCH.encode c 0 = some (Except.error "Message is too long") := by
  have hdeg : PolyGF2.degree 0 = 63 := by decide
  unfold BCH.encode
  rw [hdeg]
  rw [if_pos (by omega)]

/-- Counterexample for C10 as stated: the BCH⟨7⟩ distance-3 codec has
message length 120 ≥ 64, so `encode(0)` passes the length check and then
panics on the 63-bit shift (`1u32 << 63`) instead of returning
`MessageTooLong`. -/
theorem claim_C10_counterexample :
    BCH.encode (BCH.fromDistance 7 3) 0 ≠ some (Except.error "Message is too long") := by
  decide

/-- Witness for C10 (amended) at the distance-7 BCH⟨4⟩ codec (k = 5). -/
theorem claim_C10_amended_witness :
    BCH.encode (BCH.fromDistance 4 7) 0 = some (Except.error "Message is too long") :=
  claim_C10_amended (BCH.fromDistance 4 7) (by decide)

/-- C1 (code bug): for the BCH⟨4⟩ distance-7 codec and msg = 0b11011, the
weight-3 error pattern 0b111000000 (bits 6, 7, 8) is located correctly by
the decoder, but line 74 of `bch/src/lib.rs` applies it with integer
addition (`received.poly + error`) instead of XOR; the carry ripples past
bit 10 and the decoder returns `Ok(0b11100)` instead of `Ok(0b11011)`. -/
theorem claim_C1_plus_bug :
    BCH.encode (BCH.fromDistance 4 7) 0b11011 = some (Except.ok 0b110111000010100) ∧
      BCH.decode 4 (BCH.fromDistance 4 7) (0b110111000010100 ^^^ 0b111000000) =
        some (Except.ok 0b11100) ∧
      (0b11100 : Nat) ≠ 0b11011 := by decide

/-- Counterexample for C2 as stated: the message 1 (degree 0 < k = 5)
round-trips to 0b10000, not to itself — encode shifts by `n − len(msg)`
but decode shifts back by `deg g = n − k`. -/
theorem claim_C2_counterexample :
    bchRoundTrip 4 (BCH.fromDistance 4 7) 1 = some (Except.ok 0b10000) ∧
      bchRoundTrip 4 (BCH.fromDistance 4 7) 1 ≠ some (Except.ok 1) := by decide

/-- C2 (amended): for the BCH⟨4⟩ distance-7 codec every nonzero message
below 2^k decodes back as `msg · x^(k−1−deg msg)`; the message is recovered
exactly when its length is exactly k (top bit set). -/
theorem claim_C2_amended : ∀ msg : Nat, msg < 32 → 1 ≤ msg →
    bchRoundTrip 4 (BCH.fromDistance 4 7) msg =
      some (Except.ok (msg * 2 ^ (4 - PolyGF2.degree msg))) := by decide

/-- Witness for C2 (amended) at the full-length message 0b11011. -/
theorem claim_C2_amended_witness :
    bchRoundTrip 4 (BCH.fromDistance 4 7) 27 =
      some (Except.ok (27 * 2 ^ (4 - PolyGF2.degree 27))) :=
  claim_C2_amended 27 (by norm_num) (by norm_num)

/-- Counterexample for C4 as stated: for the GF(2²) Reed–Solomon codec of
distance 3 and the message `x` (length 2), the encoded polynomial has
length 4, not k + d = 5 (the top evaluation is zero and is stripped), and
the evaluation point for i = 4 is `GF2TM::new(4)` with value 0 — the low
2 bits of 4 — not 4 reduced modulo `irr` (which is 3). -/
theorem claim_C4_counterexample :
    (RS.encode 2 3 [GF2TM.new 2 0, GF2TM.new 2 1]).length ≠
        [GF2TM.new 2 0, GF2TM.new 2 1].length + 3 ∧
      (GF2TM.new 2 4).value ≠ PolyGF2.pmodT 4 (PolyGF2.irreducible 2) := by decide

/-- C4 (amended): the i-th Reed–Solomon evaluation (before the polynomial
constructor strips trailing zero coefficients) is msg evaluated at
`GF2TM::new(i)`, whose value is `i mod 2^m` — the low m bits of i, with no
reduction modulo `irr`. -/
theorem claim_C4_amended (m0 d : Nat) (msg : List GF2TM) (i : Nat)
    (hi : i < msg.length + d) (hiW : i < 2^32) (hm31 : m0 ≤ 31) :
    (RS.rsEvals m0 d msg)[i]? = some (polyEval m0 msg (GF2TM.new m0 i)) ∧
      (GF2TM.new m0 i).value = i % 2^m0 ∧
      RS.encode m0 d msg = trimZeros (RS.rsEvals m0 d msg) := by
  refine ⟨?_, ?_, rfl⟩
  · unfold RS.rsEvals
    rw [List.getElem?_map, List.getElem?_range hi]
    rfl
  · show PolyGF2.pmodT i (2^m0) = i % 2^m0
    exact pmodT_two_pow i m0 hiW hm31

/-- Witness for C4 (amended) at the S5 parameters (m = 8, d = 5) and i = 4. -/
theorem claim_C4_amended_witness :
    (RS.rsEvals 8 5 [GF2TM.new 8 3, GF2TM.new 8 2])[4]? =
        some (polyEval 8 [GF2TM.new 8 3, GF2TM.new 8 2] (GF2TM.new 8 4)) ∧
      (GF2TM.new 8 4).value = 4 % 2^8 ∧
      RS.encode 8 5 [GF2TM.new 8 3, GF2TM.new 8 2] =
        trimZeros (RS.rsEvals 8 5 [GF2TM.new 8 3, GF2TM.new 8 2]) :=
  claim_C4_amended 8 5 [GF2TM.new 8 3, GF2TM.new 8 2] 4 (by norm_num) (by norm_num)
    (by norm_num)

/-- C5: the concatenated codec (outer RS⟨8⟩ distance 5, inner BCH⟨4⟩
distance 7) encodes the message [3, 2] into exactly the seven inner
codewords of scenario S7, each inner message carrying the sentinel bit
2^4. -/
theorem claim_C5_concat_encode :
    concatEncode 8 4 5 (BCH.fromDistance 4 7) [GF2TM.new 8 3, GF2TM.new 8 2] =
      some [0b100110111000010, 0b100011110101100, 0b101110000101001, 0b101011001000111,
        0b110111000010100, 0b110010001111010, 0b111111111111111] := by decide
